import Mathlib

/-!
Shallow embedding of the RT-WMN simulator core (src/app.py): node generation,
selfish assignment, topology construction, routing and single-packet delivery.
Randomness is modelled by explicit streams of draws; distances are kept exact
by carrying squared Euclidean distances.
-/

namespace WMN

/-- Per-node record mirroring the dictionaries stored in the module-level
nodes mapping: position, residual power, trust score and the selfish flag. -/
structure NodeData where
  x : ℤ
  y : ℤ
  power : ℤ
  trust : ℤ
  selfish : Bool
deriving DecidableEq

/-- Simulation parameters taken from the sidebar controls. -/
structure Config where
  numNodes : ℕ
  txRange : ℕ
  selfishRatio : ℕ
  mobility : Bool
  multiRadio : Bool
  multiChannel : Bool
deriving DecidableEq

/-- Squared Euclidean distance between two node positions. The source computes
math.dist, the square root of this value; we carry the square to stay exact. -/
def dist2 (a b : NodeData) : ℕ :=
  (a.x - b.x).natAbs ^ 2 + (a.y - b.y).natAbs ^ 2

/-- Undirected weighted graph as built by the topology loop: adjacency plus
the weight (kept as the squared distance) and capacity edge attributes. -/
structure WGraph where
  n : ℕ
  adj : ℕ → ℕ → Bool
  weightSq : ℕ → ℕ → ℕ
  capacity : ℕ → ℕ → ℤ

/-- Edge capacity: max(1, 100 - int(dist / 3)) plus the multi-radio and
multi-channel bonuses, as computed in the topology loop. Since dist is the
square root of the squared distance d2, int(dist / 3) equals Nat.sqrt d2 / 3. -/
def capacityOf (mr mc : Bool) (d2 : ℕ) : ℤ :=
  max 1 (100 - ((Nat.sqrt d2 / 3 : ℕ) : ℤ)) + (if mr then 20 else 0) +
    (if mc then 15 else 0)

/-- Topology builder: for every ordered pair i ≠ j of node ids an edge is
added when the Euclidean distance is at most txRange (compared exactly via
squares); the symmetric double insertion is deduplicated by nx.Graph. -/
def buildGraph (cfg : Config) (nodes : ℕ → NodeData) : WGraph where
  n := cfg.numNodes
  adj := fun i j =>
    decide (i < cfg.numNodes) && decide (j < cfg.numNodes) && decide (i ≠ j) &&
      decide (dist2 (nodes i) (nodes j) ≤ cfg.txRange ^ 2)
  weightSq := fun i j => dist2 (nodes i) (nodes j)
  capacity := fun i j => capacityOf cfg.multiRadio cfg.multiChannel (dist2 (nodes i) (nodes j))

/-- Neighbour list of x in g, in increasing id order. -/
def neighbors (g : WGraph) (x : ℕ) : List ℕ :=
  (List.range g.n).filter (fun y => g.adj x y)

/-- Membership in the networkx graph: a node is present iff some add_edge call
mentioned it, i.e. iff it has at least one incident edge. -/
def isNode (g : WGraph) (x : ℕ) : Bool :=
  !(neighbors g x).isEmpty

/-- Breadth-first search over g toward dst. Queue entries are reversed walks
(current vertex first, source last); fuel bounds the number of dequeues and
g.n + 1 suffices because every vertex is enqueued at most once. This models
the path search performed by nx.shortest_path; which of several connecting
paths is produced is a tie-break none of the verified properties depend on. -/
def bfsLoop (g : WGraph) (dst : ℕ) : ℕ → List (List ℕ) → List ℕ → Option (List ℕ)
  | 0, _, _ => none
  | _ + 1, [], _ => none
  | fuel + 1, [] :: queue, visited => bfsLoop g dst fuel queue visited
  | fuel + 1, (x :: rest) :: queue, visited =>
    if x = dst then some (x :: rest).reverse
    else
      let nbrs := (neighbors g x).filter (fun y => !visited.contains y)
      bfsLoop g dst fuel (queue ++ nbrs.map (fun y => y :: x :: rest)) (visited ++ nbrs)

/-- Router find_route: nx.shortest_path wrapped in a bare except returning
None. The exceptional cases are src or dst missing from the graph
(NodeNotFound) and disconnection (NetworkXNoPath); src = dst present in the
graph yields the one-element path. -/
def find_route (g : WGraph) (src dst : ℕ) : Option (List ℕ) :=
  if isNode g src = true then
    if isNode g dst = true then
      if src = dst then some [src]
      else bfsLoop g dst (g.n + 1) [[src]] [src]
    else none
  else none

/-- Functional update for nodes[hop]["power"] -= d. -/
def decPower (nodes : ℕ → NodeData) (hop : ℕ) (d : ℤ) : ℕ → NodeData :=
  fun z => if z = hop then { nodes hop with power := (nodes hop).power - d } else nodes z

/-- Functional update for nodes[hop]["trust"] -= 5. -/
def decTrust (nodes : ℕ → NodeData) (hop : ℕ) : ℕ → NodeData :=
  fun z => if z = hop then { nodes hop with trust := (nodes hop).trust - 5 } else nodes z

/-- Hop walk of send_packet. roll k is the uniform [0,1) drop roll available
at hop index k (read only when that hop is selfish) and dec k the randint(1,5)
power decrement drawn at hop index k. -/
def sendWalk (roll : ℕ → ℚ) (dec : ℕ → ℤ) :
    List ℕ → ℕ → (ℕ → NodeData) → (ℕ → NodeData) × String
  | [], _, nodes => (nodes, "Delivered")
  | hop :: rest, k, nodes =>
    if (nodes hop).selfish = true ∧ roll k < 3 / 5 then
      (decTrust nodes hop, "Dropped by selfish node")
    else sendWalk roll dec rest (k + 1) (decPower nodes hop (dec k))

/-- Packet delivery send_packet: route, then walk the path. The result is the
mutated node map together with the returned pair (path, status); the guard
on the empty list mirrors the falsiness test (if not path) of the source. -/
def send_packet (g : WGraph) (roll : ℕ → ℚ) (dec : ℕ → ℤ) (nodes : ℕ → NodeData)
    (src dst : ℕ) : (ℕ → NodeData) × Option (List ℕ) × String :=
  match find_route g src dst with
  | none => (nodes, none, "No Path Found")
  | some p =>
    if p = [] then (nodes, none, "No Path Found")
    else
      let r := sendWalk roll dec p 0 nodes
      (r.1, some p, r.2)

/-- Power-only effect of walking a list of hops without any drop. -/
def applyPowers (dec : ℕ → ℤ) : List ℕ → ℕ → (ℕ → NodeData) → ℕ → NodeData
  | [], _, nodes => nodes
  | hop :: rest, k, nodes => applyPowers dec rest (k + 1) (decPower nodes hop (dec k))

/-- Number of selfish nodes: int(num_nodes * selfish_ratio / 100). For the
slider ranges the float true-division is exact enough that the truncation
coincides with integer floor division. -/
def numSelfish (n ratio : ℕ) : ℕ := n * ratio / 100

/-- Record of every random draw of one run; streams stand for the successive
calls into the global random module, and sel for the random.sample result. -/
structure RandomSource where
  xs : ℕ → ℤ
  ys : ℕ → ℤ
  pw : ℕ → ℤ
  sel : List ℕ
  trustRoll : ℕ → ℤ
  srcPick : ℕ
  dstPick : ℕ
  dropRoll : ℕ → ℚ
  powerDec : ℕ → ℤ

/-- Node generation loop: every id gets a fresh node with random position and
power, trust 100 and selfish false. -/
def initNodes (r : RandomSource) : ℕ → NodeData :=
  fun i => ⟨r.xs i, r.ys i, r.pw i, 100, false⟩

/-- Selfish assignment loop: each sampled id has its selfish flag set and its
trust re-rolled (tr k is the randint(20,60) draw of iteration k). -/
def assignSelfish (sel : List ℕ) (tr : ℕ → ℤ) (k : ℕ) (nodes : ℕ → NodeData) :
    ℕ → NodeData :=
  match sel with
  | [] => nodes
  | sn :: rest =>
    assignSelfish rest tr (k + 1)
      (fun z => if z = sn then { nodes sn with selfish := true, trust := tr k } else nodes z)

/-- Node state after generation and selfish assignment. -/
def setupNodes (r : RandomSource) : ℕ → NodeData :=
  assignSelfish r.sel r.trustRoll 0 (initNodes r)

/-- Whole core run: build the nodes and graph, pick src and dst, send one
packet; returns the final node map, the graph and the reported outputs. -/
def runSim (cfg : Config) (r : RandomSource) :
    (ℕ → NodeData) × WGraph × ℕ × ℕ × Option (List ℕ) × String :=
  let nodes := setupNodes r
  let g := buildGraph cfg nodes
  let res := send_packet g r.dropRoll r.powerDec nodes r.srcPick r.dstPick
  (res.1, g, r.srcPick, r.dstPick, res.2.1, res.2.2)

/-- Valid walk in g from src to dst: nonempty, endpoints as given, every
vertex present in the graph, consecutive vertices adjacent. -/
def ValidWalk (g : WGraph) (src dst : ℕ) (p : List ℕ) : Prop :=
  p ≠ [] ∧ p.head? = some src ∧ p.getLast? = some dst ∧
    (∀ x ∈ p, isNode g x = true) ∧ p.Chain' (fun a b => g.adj a b = true)

/-- Existence of a walk from src to dst in g. -/
def ExistsPath (g : WGraph) (src dst : ℕ) : Prop :=
  ∃ p, ValidWalk g src dst p

/-- Two-node example configuration used for concrete evaluations. -/
def cfgW : Config := ⟨2, 10, 20, true, true, true⟩

/-- Example node map whose node 1 is selfish; nodes 0 and 1 are 5 apart. -/
def nodesW : ℕ → NodeData := fun i =>
  if i = 0 then ⟨0, 0, 90, 100, false⟩
  else if i = 1 then ⟨3, 4, 80, 40, true⟩
  else ⟨1000, 1000, 70, 100, false⟩

/-- Graph of the two-node selfish example. -/
def gW : WGraph := buildGraph cfgW nodesW

/-- Example node map with no selfish node; nodes 0 and 1 are 5 apart. -/
def nodesD : ℕ → NodeData := fun i =>
  if i = 0 then ⟨0, 0, 90, 100, false⟩
  else if i = 1 then ⟨3, 4, 80, 100, false⟩
  else ⟨1000, 1000, 70, 100, false⟩

/-- Graph of the two-node cooperative example. -/
def gD : WGraph := buildGraph cfgW nodesD

/-- Three-node example configuration whose node 2 is out of range of the rest. -/
def cfgI : Config := ⟨3, 10, 0, true, false, false⟩

/-- Node map for the isolated-node example. -/
def nodesI : ℕ → NodeData := fun i =>
  if i = 0 then ⟨0, 0, 90, 100, false⟩
  else if i = 1 then ⟨3, 4, 80, 100, false⟩
  else ⟨500, 500, 70, 100, false⟩

/-- Graph of the isolated-node example: one edge (0,1), node 2 isolated. -/
def gI : WGraph := buildGraph cfgI nodesI

/-- Concrete random draws with sample [0, 1], used with 10 nodes at ratio 20. -/
def rC6 : RandomSource :=
  ⟨fun _ => 0, fun _ => 0, fun _ => 70, [0, 1], fun _ => 30, 0, 0, fun _ => 0, fun _ => 1⟩

/-- Concrete random draws with sample [0], used with 19 nodes at ratio 10. -/
def rC7 : RandomSource :=
  ⟨fun _ => 0, fun _ => 0, fun _ => 70, [0], fun _ => 30, 0, 0, fun _ => 0, fun _ => 1⟩

/-- Ids outside the sample keep their node record through selfish assignment. -/
lemma assignSelfish_not_mem (sel : List ℕ) (tr : ℕ → ℤ) (k : ℕ) (nodes : ℕ → NodeData)
    (z : ℕ) (hz : z ∉ sel) : assignSelfish sel tr k nodes z = nodes z := by
  induction sel generalizing k nodes with
  | nil => rfl
  | cons sn rest ih =>
    simp only [List.mem_cons, not_or] at hz
    rw [assignSelfish, ih _ _ hz.2]
    simp [hz.1]

/-- Every sampled id ends up selfish. -/
lemma assignSelfish_selfish_of_mem (sel : List ℕ) (tr : ℕ → ℤ) (k : ℕ)
    (nodes : ℕ → NodeData) (z : ℕ) (hz : z ∈ sel) :
    (assignSelfish sel tr k nodes z).selfish = true := by
  induction sel generalizing k nodes with
  | nil => cases hz
  | cons sn rest ih =>
    rw [assignSelfish]
    by_cases hr : z ∈ rest
    · exact ih _ _ hr
    · have hzsn : z = sn := by
        rcases List.mem_cons.mp hz with h | h
        · exact h
        · exact absurd h hr
      rw [assignSelfish_not_mem _ _ _ _ _ hr]
      simp [hzsn]

/-- Every sampled id gets its trust from one of the trust re-rolls. -/
lemma assignSelfish_trust_of_mem (sel : List ℕ) (tr : ℕ → ℤ) (k : ℕ)
    (nodes : ℕ → NodeData) (z : ℕ) (hz : z ∈ sel) :
    ∃ j, (assignSelfish sel tr k nodes z).trust = tr j := by
  induction sel generalizing k nodes with
  | nil => cases hz
  | cons sn rest ih =>
    rw [assignSelfish]
    by_cases hr : z ∈ rest
    · exact ih _ _ hr
    · have hzsn : z = sn := by
        rcases List.mem_cons.mp hz with h | h
        · exact h
        · exact absurd h hr
      rw [assignSelfish_not_mem _ _ _ _ _ hr]
      exact ⟨k, by simp [hzsn]⟩

/-- After setup a node is selfish exactly when its id was sampled. -/
lemma setup_selfish_iff (r : RandomSource) (z : ℕ) :
    ((setupNodes r) z).selfish = true ↔ z ∈ r.sel := by
  constructor
  · intro h
    by_contra hz
    rw [setupNodes, assignSelfish_not_mem _ _ _ _ _ hz] at h
    simp [initNodes] at h
  · exact fun hz => assignSelfish_selfish_of_mem _ _ _ _ _ hz

/-- The selfish nodes after setup are exactly the sampled ids, so there are
as many of them as the sample is long. -/
lemma setup_selfish_card (n : ℕ) (r : RandomSource) (hnd : r.sel.Nodup)
    (hmem : ∀ x ∈ r.sel, x < n) :
    ((Finset.range n).filter (fun i => ((setupNodes r) i).selfish = true)).card
      = r.sel.length := by
  have hset : (Finset.range n).filter (fun i => ((setupNodes r) i).selfish = true)
      = r.sel.toFinset := by
    ext i
    simp only [Finset.mem_filter, Finset.mem_range, List.mem_toFinset, setup_selfish_iff]
    exact ⟨fun h => h.2, fun h => ⟨hmem i h, h⟩⟩
  rw [hset, List.toFinset_card_of_nodup hnd]

/-- C6: for in-range parameters, selfish assignment marks exactly
floor(numNodes * selfishRatio / 100) distinct ids selfish (the ids sampled
without replacement), re-rolls each sampled node's trust into [20, 60],
leaves unsampled nodes untouched, and when the count is 0 no node is selfish
and every trust stays 100. -/
theorem selfish_c6 (n ratio : ℕ) (r : RandomSource)
    (h5 : 5 ≤ n) (h50 : n ≤ 50) (hratio : ratio ≤ 80)
    (hlen : r.sel.length = numSelfish n ratio)
    (hnd : r.sel.Nodup) (hmem : ∀ x ∈ r.sel, x < n)
    (htr : ∀ k, 20 ≤ r.trustRoll k ∧ r.trustRoll k ≤ 60) :
    ((Finset.range n).filter (fun i => ((setupNodes r) i).selfish = true)).card
        = numSelfish n ratio ∧
    (∀ x ∈ r.sel, ((setupNodes r) x).selfish = true ∧
        20 ≤ ((setupNodes r) x).trust ∧ ((setupNodes r) x).trust ≤ 60) ∧
    (∀ x, x ∉ r.sel → (setupNodes r) x = initNodes r x) ∧
    (numSelfish n ratio = 0 →
      ∀ x, ((setupNodes r) x).selfish = false ∧ ((setupNodes r) x).trust = 100) := by
  refine ⟨by rw [setup_selfish_card n r hnd hmem, hlen], ?_, ?_, ?_⟩
  · intro x hx
    refine ⟨assignSelfish_selfish_of_mem _ _ _ _ _ hx, ?_⟩
    obtain ⟨j, hj⟩ := assignSelfish_trust_of_mem r.sel r.trustRoll 0 (initNodes r) x hx
    rw [setupNodes, hj]
    exact htr j
  · exact fun x hx => assignSelfish_not_mem _ _ _ _ _ hx
  · intro h0 x
    have hnil : r.sel = [] := List.length_eq_zero.mp (by rw [hlen, h0])
    have hx : x ∉ r.sel := by rw [hnil]; exact List.not_mem_nil x
    rw [setupNodes, assignSelfish_not_mem _ _ _ _ _ hx]
    exact ⟨rfl, rfl⟩

/-- Witness for C6 at 10 nodes and ratio 20 with sample [0, 1]. -/
theorem selfish_c6_witness :
    ((Finset.range 10).filter (fun i => ((setupNodes rC6) i).selfish = true)).card
        = numSelfish 10 20 ∧
    ((setupNodes rC6) 0).selfish = true ∧
    20 ≤ ((setupNodes rC6) 0).trust ∧ ((setupNodes rC6) 0).trust ≤ 60 ∧
    (setupNodes rC6) 5 = initNodes rC6 5 := by
  have h := selfish_c6 10 20 rC6 (by decide) (by decide) (by decide) (by decide)
    (by decide) (by decide) (fun k => ⟨by norm_num [rC6], by norm_num [rC6]⟩)
  obtain ⟨h1, h2, h3, _⟩ := h
  obtain ⟨ha, hb, hc⟩ := h2 0 (by decide)
  exact ⟨h1, ha, hb, hc, h3 5 (by decide)⟩

/-- C7: the claim rounds to the nearest integer, but the code truncates: at
19 nodes and ratio 10 the sample the code draws has length int(1.9) = 1, so
exactly one node is selfish, while round(1.9) = 2. -/
theorem selfish_c7_cex :
    rC7.sel.length = numSelfish 19 10 ∧ rC7.sel.Nodup ∧ (∀ x ∈ rC7.sel, x < 19) ∧
    ((Finset.range 19).filter (fun i => ((setupNodes rC7) i).selfish = true)).card = 1 ∧
    round ((19 * 10 : ℚ) / 100) = 2 ∧
    (((Finset.range 19).filter
        (fun i => ((setupNodes rC7) i).selfish = true)).card : ℤ)
      ≠ round ((19 * 10 : ℚ) / 100) := by
  refine ⟨by decide, by decide, by decide, by decide, ?_, ?_⟩
  · norm_num [round_eq]
  · have h : ((Finset.range 19).filter
        (fun i => ((setupNodes rC7) i).selfish = true)).card = 1 := by decide
    rw [h]
    norm_num [round_eq]

/-- C7 amended: after selfish assignment exactly floor(numNodes *
selfishRatio / 100) nodes are selfish, the sample being drawn without
replacement. -/
theorem selfish_c7_floor (n ratio : ℕ) (r : RandomSource)
    (hlen : r.sel.length = numSelfish n ratio)
    (hnd : r.sel.Nodup) (hmem : ∀ x ∈ r.sel, x < n) :
    ((Finset.range n).filter (fun i => ((setupNodes r) i).selfish = true)).card
      = numSelfish n ratio := by
  rw [setup_selfish_card n r hnd hmem, hlen]

/-- Witness for the amended C7 at 19 nodes and ratio 10 with sample [0]. -/
theorem selfish_c7_floor_witness :
    ((Finset.range 19).filter (fun i => ((setupNodes rC7) i).selfish = true)).card
      = numSelfish 19 10 :=
  selfish_c7_floor 19 10 rC7 (by decide) (by decide) (by decide)

/-- C9: the mobility flag has no effect on any core output: two runs with
the same parameters and the same random draws that differ only in mobility
produce the same node map, graph, source, destination, path and status. -/
theorem mobility_c9 (cfg : Config) (m : Bool) (r : RandomSource) :
    runSim { cfg with mobility := m } r = runSim cfg r := by
  cases cfg
  rfl

/-- C10: under the documented slider bounds the selfish-node count is at most
the number of nodes, so the unguarded random.sample call always has enough
ids to draw from and cannot raise. -/
theorem bounds_c10 (n ratio : ℕ) (h5 : 5 ≤ n) (h50 : n ≤ 50) (hratio : ratio ≤ 80) :
    numSelfish n ratio ≤ n ∧ numSelfish n ratio ≤ (List.range n).length := by
  have h : numSelfish n ratio ≤ n := by
    have h1 : n * ratio ≤ n * 100 :=
      Nat.mul_le_mul_left n (hratio.trans (by norm_num))
    calc n * ratio / 100 ≤ n * 100 / 100 := Nat.div_le_div_right h1
    _ = n := Nat.mul_div_cancel n (by norm_num)
  exact ⟨h, by simpa using h⟩

/-- Witness for C10 at the extreme corner of the documented bounds. -/
theorem bounds_c10_witness :
    numSelfish 50 80 ≤ 50 ∧ numSelfish 50 80 ≤ (List.range 50).length :=
  bounds_c10 50 80 (by decide) (by decide) (by decide)

/-- Casting the squared distance to the reals gives the squared coordinate
differences of the two positions. -/
lemma dist2_cast (a b : NodeData) :
    ((dist2 a b : ℕ) : ℝ)
      = (((a.x : ℝ)) - ((b.x : ℝ))) ^ 2 + (((a.y : ℝ)) - ((b.y : ℝ))) ^ 2 := by
  rw [dist2]
  push_cast
  rw [Int.cast_natAbs, Int.cast_natAbs, Int.cast_abs, Int.cast_abs, sq_abs, sq_abs]
  push_cast
  ring

/-- Comparing the real Euclidean distance with the range is the same as
comparing squared distances over the naturals. -/
lemma sqrt_le_range_iff (d2 tx : ℕ) :
    Real.sqrt (d2 : ℝ) ≤ (tx : ℝ) ↔ d2 ≤ tx ^ 2 := by
  rw [Real.sqrt_le_left (by positivity : (0 : ℝ) ≤ (tx : ℝ))]
  constructor
  · intro h
    exact_mod_cast h
  · intro h
    exact_mod_cast h

/-- The integer part of sqrt(d2)/3 computed over the reals agrees with the
natural-number computation used in the capacity definition. -/
lemma floor_sqrt_div_three (d2 : ℕ) :
    ⌊Real.sqrt (d2 : ℝ) / 3⌋ = ((Nat.sqrt d2 / 3 : ℕ) : ℤ) := by
  have h0 : (0 : ℝ) ≤ Real.sqrt (d2 : ℝ) / 3 := by positivity
  rw [← Int.natCast_floor_eq_floor h0]
  have h3 : Real.sqrt (d2 : ℝ) / 3 = Real.sqrt (d2 : ℝ) / ((3 : ℕ) : ℝ) := by norm_num
  rw [h3, Nat.floor_div_nat, Real.nat_floor_real_sqrt_eq_nat_sqrt]

/-- C1: for distinct in-range ids i and j, the graph has the edge (i, j)
exactly when the Euclidean distance of the two positions is at most
txRange; the stored weight is that distance (carried as its square) and the
capacity is max(1, 100 - floor(distance / 3)) plus 20 for multi-radio and 15
for multi-channel, so it is always at least 1. -/
theorem topology_c1 (cfg : Config) (nodes : ℕ → NodeData) (i j : ℕ)
    (hi : i < cfg.numNodes) (hj : j < cfg.numNodes) (hij : i ≠ j) :
    ((buildGraph cfg nodes).adj i j = true ↔
      Real.sqrt ((((nodes i).x : ℝ) - ((nodes j).x : ℝ)) ^ 2 +
          (((nodes i).y : ℝ) - ((nodes j).y : ℝ)) ^ 2) ≤ (cfg.txRange : ℝ)) ∧
    Real.sqrt (((buildGraph cfg nodes).weightSq i j : ℝ)) =
      Real.sqrt ((((nodes i).x : ℝ) - ((nodes j).x : ℝ)) ^ 2 +
        (((nodes i).y : ℝ) - ((nodes j).y : ℝ)) ^ 2) ∧
    (buildGraph cfg nodes).capacity i j =
      max 1 (100 - ⌊Real.sqrt ((((nodes i).x : ℝ) - ((nodes j).x : ℝ)) ^ 2 +
          (((nodes i).y : ℝ) - ((nodes j).y : ℝ)) ^ 2) / 3⌋) +
        (if cfg.multiRadio then 20 else 0) + (if cfg.multiChannel then 15 else 0) ∧
    1 ≤ (buildGraph cfg nodes).capacity i j := by
  have hcast := dist2_cast (nodes i) (nodes j)
  refine ⟨?_, ?_, ?_, ?_⟩
  · rw [← hcast, sqrt_le_range_iff]
    simp [buildGraph, hi, hj, hij]
  · rw [← hcast]
    rfl
  · show capacityOf cfg.multiRadio cfg.multiChannel (dist2 (nodes i) (nodes j)) = _
    rw [← hcast, floor_sqrt_div_three, capacityOf]
  · show 1 ≤ capacityOf cfg.multiRadio cfg.multiChannel (dist2 (nodes i) (nodes j))
    rw [capacityOf]
    have h1 : (1 : ℤ) ≤ max 1 (100 - ((Nat.sqrt (dist2 (nodes i) (nodes j)) / 3 : ℕ) : ℤ)) :=
      le_max_left _ _
    have h2 : (0 : ℤ) ≤ (if cfg.multiRadio then 20 else 0) := by positivity
    have h3 : (0 : ℤ) ≤ (if cfg.multiChannel then 15 else 0) := by positivity
    linarith

/-- Witness for C1 on the two-node example: ids 0 and 1 at distance 5 with
txRange 10. -/
theorem topology_c1_witness :
    ((buildGraph cfgW nodesW).adj 0 1 = true ↔
      Real.sqrt ((((nodesW 0).x : ℝ) - ((nodesW 1).x : ℝ)) ^ 2 +
          (((nodesW 0).y : ℝ) - ((nodesW 1).y : ℝ)) ^ 2) ≤ (cfgW.txRange : ℝ)) ∧
    Real.sqrt (((buildGraph cfgW nodesW).weightSq 0 1 : ℝ)) =
      Real.sqrt ((((nodesW 0).x : ℝ) - ((nodesW 1).x : ℝ)) ^ 2 +
        (((nodesW 0).y : ℝ) - ((nodesW 1).y : ℝ)) ^ 2) ∧
    (buildGraph cfgW nodesW).capacity 0 1 =
      max 1 (100 - ⌊Real.sqrt ((((nodesW 0).x : ℝ) - ((nodesW 1).x : ℝ)) ^ 2 +
          (((nodesW 0).y : ℝ) - ((nodesW 1).y : ℝ)) ^ 2) / 3⌋) +
        (if cfgW.multiRadio then 20 else 0) + (if cfgW.multiChannel then 15 else 0) ∧
    1 ≤ (buildGraph cfgW nodesW).capacity 0 1 :=
  topology_c1 cfgW nodesW 0 1 (by decide) (by decide) (by decide)

/-- Squared distance is symmetric. -/
lemma dist2_comm (a b : NodeData) : dist2 a b = dist2 b a := by
  rw [dist2, dist2, ← Int.natAbs_neg (a.x - b.x), ← Int.natAbs_neg (a.y - b.y),
    neg_sub, neg_sub]

/-- Unfolding of the adjacency test of the built graph. -/
lemma buildGraph_adj_iff (cfg : Config) (nodes : ℕ → NodeData) (a b : ℕ) :
    (buildGraph cfg nodes).adj a b = true ↔
      a < cfg.numNodes ∧ b < cfg.numNodes ∧ a ≠ b ∧
        dist2 (nodes a) (nodes b) ≤ cfg.txRange ^ 2 := by
  simp [buildGraph, and_assoc]

/-- The built graph is undirected: adjacency is symmetric. -/
lemma buildGraph_symm (cfg : Config) (nodes : ℕ → NodeData) (a b : ℕ) :
    (buildGraph cfg nodes).adj a b = (buildGraph cfg nodes).adj b a := by
  have h : ((buildGraph cfg nodes).adj a b = true) ↔
      ((buildGraph cfg nodes).adj b a = true) := by
    rw [buildGraph_adj_iff, buildGraph_adj_iff, dist2_comm (nodes a) (nodes b)]
    constructor
    · rintro ⟨h1, h2, h3, h4⟩
      exact ⟨h2, h1, Ne.symm h3, h4⟩
    · rintro ⟨h1, h2, h3, h4⟩
      exact ⟨h2, h1, Ne.symm h3, h4⟩
  cases ha : (buildGraph cfg nodes).adj a b <;> cases hb : (buildGraph cfg nodes).adj b a
  · rfl
  · exact absurd (h.mpr hb) (by simp [ha])
  · exact absurd (h.mp ha) (by simp [hb])
  · rfl

/-- A node is in the graph exactly when its neighbour list is nonempty. -/
lemma isNode_iff (g : WGraph) (x : ℕ) : isNode g x = true ↔ neighbors g x ≠ [] := by
  rw [isNode]
  cases h : neighbors g x <;> simp [h]

/-- Any endpoint of an edge of the built graph is in the graph. -/
lemma buildGraph_iso (cfg : Config) (nodes : ℕ → NodeData) :
    ∀ x y, (buildGraph cfg nodes).adj x y = true →
      isNode (buildGraph cfg nodes) y = true := by
  intro x y h
  have hsym : (buildGraph cfg nodes).adj y x = true := by
    rw [buildGraph_symm]
    exact h
  have hx : x < cfg.numNodes := ((buildGraph_adj_iff cfg nodes x y).mp h).1
  have hmemx : x ∈ neighbors (buildGraph cfg nodes) y := by
    rw [neighbors]
    exact List.mem_filter.mpr ⟨List.mem_range.mpr hx, hsym⟩
  rw [isNode_iff]
  intro hnil
  rw [hnil] at hmemx
  cases hmemx

/-- Reversed walk invariant kept by the search queue: nonempty, ends at the
source, every vertex in the graph, consecutive entries joined by an edge
read backwards. -/
def RevWalk (g : WGraph) (src : ℕ) (e : List ℕ) : Prop :=
  e ≠ [] ∧ e.getLast? = some src ∧ (∀ x ∈ e, isNode g x = true) ∧
    e.Chain' (fun a b => g.adj b a = true)

/-- Reversing a queue entry whose head is dst yields a valid walk. -/
lemma revWalk_validWalk (g : WGraph) (src dst : ℕ) (e : List ℕ)
    (h : RevWalk g src e) (hh : e.head? = some dst) :
    ValidWalk g src dst e.reverse := by
  obtain ⟨hne, hlast, hmem, hch⟩ := h
  refine ⟨by simpa using hne, ?_, ?_, ?_, ?_⟩
  · rw [List.head?_reverse]
    exact hlast
  · rw [List.getLast?_reverse]
    exact hh
  · intro x hx
    exact hmem x (List.mem_reverse.mp hx)
  · rw [List.chain'_reverse]
    exact hch

/-- Soundness of the search: anything it returns is a valid walk. -/
lemma bfsLoop_sound (g : WGraph) (src dst : ℕ)
    (hiso : ∀ x y, g.adj x y = true → isNode g y = true) :
    ∀ fuel queue visited p, (∀ e ∈ queue, RevWalk g src e) →
      bfsLoop g dst fuel queue visited = some p → ValidWalk g src dst p := by
  intro fuel
  induction fuel with
  | zero =>
    intro queue visited p hq h
    simp [bfsLoop] at h
  | succ m ih =>
    intro queue visited p hq h
    cases queue with
    | nil => simp [bfsLoop] at h
    | cons e q =>
      cases e with
      | nil =>
        exact absurd rfl ((hq [] (List.mem_cons_self _ _)).1)
      | cons x rest =>
        rw [bfsLoop] at h
        by_cases hx : x = dst
        · rw [if_pos hx] at h
          injection h with h'
          subst h'
          exact revWalk_validWalk g src dst (x :: rest)
            (hq _ (List.mem_cons_self _ _)) (by simp [hx])
        · rw [if_neg hx] at h
          refine ih _ _ _ ?_ h
          intro e he
          rcases List.mem_append.mp he with h1 | h2
          · exact hq e (List.mem_cons_of_mem _ h1)
          · rcases List.mem_map.mp h2 with ⟨y, hy, rfl⟩
            have hyadj : g.adj x y = true :=
              (List.mem_filter.mp (List.mem_filter.mp hy).1).2
            obtain ⟨hne, hlast, hmem, hch⟩ := hq (x :: rest) (List.mem_cons_self _ _)
            refine ⟨by simp, ?_, ?_, ?_⟩
            · rw [List.getLast?_cons_cons]
              exact hlast
            · intro z hz
              rcases List.mem_cons.mp hz with rfl | hz
              · exact hiso x z hyadj
              · exact hmem z hz
            · rw [List.chain'_cons]
              exact ⟨hyadj, hch⟩

/-- Soundness of find_route: a returned path is a valid walk of the graph. -/
lemma find_route_sound (g : WGraph) (src dst : ℕ) (p : List ℕ)
    (hiso : ∀ x y, g.adj x y = true → isNode g y = true)
    (h : find_route g src dst = some p) : ValidWalk g src dst p := by
  rw [find_route] at h
  by_cases hs : isNode g src = true
  · rw [if_pos hs] at h
    by_cases hd : isNode g dst = true
    · rw [if_pos hd] at h
      by_cases he : src = dst
      · rw [if_pos he] at h
        injection h with h'
        subst h'
        refine ⟨by simp, rfl, by simp [he], ?_, List.chain'_singleton _⟩
        intro z hz
        rcases List.mem_cons.mp hz with rfl | hz
        · exact hs
        · cases hz
      · rw [if_neg he] at h
        refine bfsLoop_sound g src dst hiso _ _ _ _ ?_ h
        intro e he'
        have he'' : e = [src] := by
          rcases List.mem_cons.mp he' with h1 | h1
          · exact h1
          · cases h1
        subst he''
        refine ⟨by simp, rfl, ?_, List.chain'_singleton _⟩
        intro z hz
        rcases List.mem_cons.mp hz with rfl | hz
        · exact hs
        · cases hz
    · rw [if_neg hd] at h
      cases h
  · rw [if_neg hs] at h
    cases h

/-- When the destination is missing from the graph there is no walk to it. -/
lemma not_existsPath_of_isNode_false (g : WGraph) (src dst : ℕ)
    (h : isNode g dst = false) : ¬ ExistsPath g src dst := by
  rintro ⟨p, hne, hh, hl, hmem, hch⟩
  have hdst : dst ∈ p :=
    List.mem_of_mem_getLast? (Option.mem_def.mpr hl)
  have htrue := hmem dst hdst
  rw [h] at htrue
  cases htrue

/-- C4: find_route returns None (no route, not an error) whenever no walk
joins src to dst in the built graph, which covers distinct connected
components and an edgeless src = dst; and for src = dst present in the graph
it returns the single-element path. -/
theorem route_c4 (cfg : Config) (nodes : ℕ → NodeData) (src dst : ℕ) :
    (¬ ExistsPath (buildGraph cfg nodes) src dst →
      find_route (buildGraph cfg nodes) src dst = none) ∧
    (src = dst → isNode (buildGraph cfg nodes) src = true →
      find_route (buildGraph cfg nodes) src dst = some [src]) := by
  constructor
  · intro hne
    cases hfr : find_route (buildGraph cfg nodes) src dst with
    | none => rfl
    | some p =>
      exact absurd ⟨p, find_route_sound _ _ _ _ (buildGraph_iso cfg nodes) hfr⟩ hne
  · intro he hs
    rw [find_route, if_pos hs, if_pos (he ▸ hs), if_pos he]

/-- Witness for C4 on the isolated-node example: node 2 is unreachable from
node 0, and routing from node 0 to itself yields the one-element path. -/
theorem route_c4_witness :
    find_route (buildGraph cfgI nodesI) 0 2 = none ∧
    find_route (buildGraph cfgI nodesI) 0 0 = some [0] :=
  ⟨(route_c4 cfgI nodesI 0 2).1
      (not_existsPath_of_isNode_false _ 0 2 (by decide)),
    (route_c4 cfgI nodesI 0 0).2 rfl (by decide)⟩

/-- C5: when no walk joins src to dst, send_packet returns exactly
(None, "No Path Found") and the node state is completely unchanged. -/
theorem send_c5 (cfg : Config) (ns : ℕ → NodeData) (roll : ℕ → ℚ) (dec : ℕ → ℤ)
    (src dst : ℕ) (h : ¬ ExistsPath (buildGraph cfg ns) src dst) :
    send_packet (buildGraph cfg ns) roll dec ns src dst = (ns, none, "No Path Found") := by
  cases hfr : find_route (buildGraph cfg ns) src dst with
  | none => simp [send_packet, hfr]
  | some p =>
    exact absurd ⟨p, find_route_sound _ _ _ _ (buildGraph_iso cfg ns) hfr⟩ h

/-- Witness for C5 on the isolated-node example. -/
theorem send_c5_witness :
    send_packet (buildGraph cfgI nodesI) (fun _ => 0) (fun _ => 1) nodesI 0 2
      = (nodesI, none, "No Path Found") :=
  send_c5 cfgI nodesI (fun _ => 0) (fun _ => 1) 0 2
    (not_existsPath_of_isNode_false _ 0 2 (by decide))

/-- Decrementing power leaves position, trust and the selfish flag alone. -/
lemma decPower_keeps (nodes : ℕ → NodeData) (hop : ℕ) (d : ℤ) (z : ℕ) :
    ((decPower nodes hop d) z).x = (nodes z).x ∧
    ((decPower nodes hop d) z).y = (nodes z).y ∧
    ((decPower nodes hop d) z).trust = (nodes z).trust ∧
    ((decPower nodes hop d) z).selfish = (nodes z).selfish := by
  by_cases h : z = hop <;> simp [decPower, h]

/-- Decrementing trust leaves position, power and the selfish flag alone. -/
lemma decTrust_keeps (nodes : ℕ → NodeData) (hop : ℕ) (z : ℕ) :
    ((decTrust nodes hop) z).x = (nodes z).x ∧
    ((decTrust nodes hop) z).y = (nodes z).y ∧
    ((decTrust nodes hop) z).power = (nodes z).power ∧
    ((decTrust nodes hop) z).selfish = (nodes z).selfish := by
  by_cases h : z = hop <;> simp [decTrust, h]

/-- Walking power decrements leaves position, trust and selfish flags alone. -/
lemma applyPowers_keeps (dec : ℕ → ℤ) (p : List ℕ) :
    ∀ (k : ℕ) (nodes : ℕ → NodeData) (z : ℕ),
      ((applyPowers dec p k nodes) z).x = (nodes z).x ∧
      ((applyPowers dec p k nodes) z).y = (nodes z).y ∧
      ((applyPowers dec p k nodes) z).trust = (nodes z).trust ∧
      ((applyPowers dec p k nodes) z).selfish = (nodes z).selfish := by
  induction p with
  | nil => exact fun k nodes z => ⟨rfl, rfl, rfl, rfl⟩
  | cons hop tail ih =>
    intro k nodes z
    rw [applyPowers]
    have h1 := ih (k + 1) (decPower nodes hop (dec k)) z
    have h2 := decPower_keeps nodes hop (dec k) z
    exact ⟨h1.1.trans h2.1, h1.2.1.trans h2.2.1, h1.2.2.1.trans h2.2.2.1,
      h1.2.2.2.trans h2.2.2.2⟩

/-- Nodes not on the walked hop list are untouched by the power decrements. -/
lemma applyPowers_not_mem (dec : ℕ → ℤ) (p : List ℕ) :
    ∀ (k : ℕ) (nodes : ℕ → NodeData) (z : ℕ), z ∉ p →
      applyPowers dec p k nodes z = nodes z := by
  induction p with
  | nil => exact fun k nodes z _ => rfl
  | cons hop tail ih =>
    intro k nodes z hz
    simp only [List.mem_cons, not_or] at hz
    rw [applyPowers, ih _ _ _ hz.2]
    simp [decPower, hz.1]

/-- Splitting the walk: as long as no selfish hop of the first segment rolls
below 0.6, the walk traverses it performing only power decrements. -/
lemma sendWalk_append_no_drop (roll : ℕ → ℚ) (dec : ℕ → ℤ) (pre : List ℕ) :
    ∀ (rest : List ℕ) (k : ℕ) (nodes : ℕ → NodeData),
      (∀ i (hi : i < pre.length),
        (nodes (pre.get ⟨i, hi⟩)).selfish = true → ¬ roll (k + i) < 3 / 5) →
      sendWalk roll dec (pre ++ rest) k nodes
        = sendWalk roll dec rest (k + pre.length) (applyPowers dec pre k nodes) := by
  induction pre with
  | nil => intro rest k nodes h; simp [applyPowers]
  | cons hop tail ih =>
    intro rest k nodes h
    rw [List.cons_append, sendWalk]
    have h0 : ¬ ((nodes hop).selfish = true ∧ roll k < 3 / 5) := by
      rintro ⟨ha, hb⟩
      exact (h 0 (by simp) ha) (by simpa using hb)
    rw [if_neg h0]
    have htail : ∀ i (hi : i < tail.length),
        ((decPower nodes hop (dec k)) (tail.get ⟨i, hi⟩)).selfish = true →
          ¬ roll ((k + 1) + i) < 3 / 5 := by
      intro i hi hsel
      have hs2 : (nodes (tail.get ⟨i, hi⟩)).selfish = true := by
        rw [← (decPower_keeps nodes hop (dec k) (tail.get ⟨i, hi⟩)).2.2.2]
        exact hsel
      have hcall := h (i + 1) (by simpa using Nat.succ_lt_succ hi)
      rw [List.get_cons_succ] at hcall
      have hres := hcall hs2
      have heq : k + (i + 1) = (k + 1) + i := by omega
      rw [heq] at hres
      exact hres
    rw [ih rest (k + 1) (decPower nodes hop (dec k)) htail]
    have heq2 : (k + 1) + tail.length = k + (hop :: tail).length := by
      simp [List.length_cons]
      omega
    rw [heq2, applyPowers]

/-- A walk along hops none of which drops ends in delivery, having applied
exactly the power decrements. -/
lemma sendWalk_no_drop (roll : ℕ → ℚ) (dec : ℕ → ℤ) (p : List ℕ) (k : ℕ)
    (nodes : ℕ → NodeData)
    (h : ∀ i (hi : i < p.length),
      (nodes (p.get ⟨i, hi⟩)).selfish = true → ¬ roll (k + i) < 3 / 5) :
    sendWalk roll dec p k nodes = (applyPowers dec p k nodes, "Delivered") := by
  have happ := sendWalk_append_no_drop roll dec p [] k nodes h
  rw [List.append_nil] at happ
  rw [happ, sendWalk]

/-- Concatenating hop segments composes the power decrements, shifting the
draw index by the length of the first segment. -/
lemma applyPowers_append (dec : ℕ → ℤ) (a : List ℕ) :
    ∀ (b : List ℕ) (k : ℕ) (nodes : ℕ → NodeData),
      applyPowers dec (a ++ b) k nodes
        = applyPowers dec b (k + a.length) (applyPowers dec a k nodes) := by
  induction a with
  | nil => intro b k nodes; simp [applyPowers]
  | cons hop tail ih =>
    intro b k nodes
    rw [List.cons_append, applyPowers, ih]
    have heq : (k + 1) + tail.length = k + (hop :: tail).length := by
      simp [List.length_cons]
      omega
    rw [heq, applyPowers]

/-- Walking power decrements never increases any node's power. -/
lemma applyPowers_power_le (dec : ℕ → ℤ) (hdec : ∀ k, 1 ≤ dec k) (p : List ℕ) :
    ∀ (k : ℕ) (nodes : ℕ → NodeData) (z : ℕ),
      ((applyPowers dec p k nodes) z).power ≤ (nodes z).power := by
  induction p with
  | nil => exact fun k nodes z => le_refl _
  | cons hop tail ih =>
    intro k nodes z
    rw [applyPowers]
    refine (ih (k + 1) _ z).trans ?_
    by_cases h : z = hop
    · subst h
      simp [decPower]
      have := hdec k
      linarith
    · simp [decPower, h]

/-- A node that appears on the walked hop list strictly loses power. -/
lemma applyPowers_power_lt (dec : ℕ → ℤ) (hdec : ∀ k, 1 ≤ dec k) (p : List ℕ) :
    ∀ (k : ℕ) (nodes : ℕ → NodeData) (z : ℕ), z ∈ p →
      ((applyPowers dec p k nodes) z).power < (nodes z).power := by
  induction p with
  | nil => intro k nodes z hz; cases hz
  | cons hop tail ih =>
    intro k nodes z hz
    rw [applyPowers]
    by_cases hzt : z ∈ tail
    · refine (ih (k + 1) _ z hzt).trans_le ?_
      by_cases h : z = hop
      · subst h
        simp [decPower]
        have := hdec k
        linarith
      · simp [decPower, h]
    · have hzh : z = hop := by
        rcases List.mem_cons.mp hz with h | h
        · exact h
        · exact absurd h hzt
      subst hzh
      rw [applyPowers_not_mem dec tail (k + 1) _ z hzt]
      simp [decPower]
      have := hdec k
      linarith

/-- C2: if the route splits as pre ++ hop :: post where no selfish hop of pre
rolls below 0.6 while hop is selfish and its roll is below 0.6, then
send_packet stops at hop: it returns the full path with status "Dropped by
selfish node", the final state is the prefix power decrements plus a trust
decrement of exactly 5 at hop, the hops after hop are never visited (the
result does not depend on post), and the dropping hop's power is not
decremented at the drop (unchanged entirely when hop is not in pre). -/
theorem send_c2 (g : WGraph) (roll : ℕ → ℚ) (dec : ℕ → ℤ) (ns : ℕ → NodeData)
    (src dst : ℕ) (pre post : List ℕ) (hop : ℕ)
    (hroute : find_route g src dst = some (pre ++ hop :: post))
    (hpre : ∀ i (hi : i < pre.length),
      (ns (pre.get ⟨i, hi⟩)).selfish = true → ¬ roll i < 3 / 5)
    (hsel : (ns hop).selfish = true) (hroll : roll pre.length < 3 / 5) :
    send_packet g roll dec ns src dst
      = (decTrust (applyPowers dec pre 0 ns) hop, some (pre ++ hop :: post),
        "Dropped by selfish node") ∧
    ((send_packet g roll dec ns src dst).1 hop).trust = (ns hop).trust - 5 ∧
    ((send_packet g roll dec ns src dst).1 hop).power
      = ((applyPowers dec pre 0 ns) hop).power ∧
    (hop ∉ pre → ((send_packet g roll dec ns src dst).1 hop).power = (ns hop).power) := by
  have hne : pre ++ hop :: post ≠ [] := by simp
  have hmain : send_packet g roll dec ns src dst
      = (decTrust (applyPowers dec pre 0 ns) hop, some (pre ++ hop :: post),
        "Dropped by selfish node") := by
    simp only [send_packet, hroute]
    rw [if_neg hne]
    rw [sendWalk_append_no_drop roll dec pre (hop :: post) 0 ns
      (by intro i hi hs; simpa using hpre i hi hs)]
    rw [sendWalk, if_pos ?hc]
    case hc =>
      constructor
      · rw [(applyPowers_keeps dec pre 0 ns hop).2.2.2]
        exact hsel
      · simpa using hroll
  refine ⟨hmain, ?_, ?_, ?_⟩
  · rw [hmain]
    simp [decTrust]
    rw [(applyPowers_keeps dec pre 0 ns hop).2.2.1]
  · rw [hmain]
    simp [decTrust]
  · intro hnm
    rw [hmain]
    simp [decTrust]
    rw [applyPowers_not_mem dec pre 0 ns hop hnm]

/-- Witness for C2 on the two-node example: route [0, 1], node 1 selfish,
all drop rolls 0. -/
theorem send_c2_witness :
    send_packet gW (fun _ => 0) (fun _ => 2) nodesW 0 1
      = (decTrust (applyPowers (fun _ => 2) [0] 0 nodesW) 1, some ([0] ++ 1 :: []),
        "Dropped by selfish node") ∧
    ((send_packet gW (fun _ => 0) (fun _ => 2) nodesW 0 1).1 1).trust
      = (nodesW 1).trust - 5 ∧
    ((send_packet gW (fun _ => 0) (fun _ => 2) nodesW 0 1).1 1).power
      = ((applyPowers (fun _ => 2) [0] 0 nodesW) 1).power ∧
    ((send_packet gW (fun _ => 0) (fun _ => 2) nodesW 0 1).1 1).power
      = (nodesW 1).power := by
  have h := send_c2 gW (fun _ => 0) (fun _ => 2) nodesW 0 1 [0] [] 1
    (by decide) (by decide) (by decide) (by norm_num)
  exact ⟨h.1, h.2.1, h.2.2.1, h.2.2.2 (by decide)⟩

/-- C3: when every node of the returned route is non-selfish, send_packet
always delivers, returning the route and applying to each hop exactly one
power decrement, the randint(1,5) draw of that hop, so every node on the
route strictly loses power; the drop rolls are irrelevant. -/
theorem send_c3 (cfg : Config) (ns : ℕ → NodeData) (roll : ℕ → ℚ) (dec : ℕ → ℤ)
    (src dst : ℕ) (p : List ℕ)
    (hroute : find_route (buildGraph cfg ns) src dst = some p)
    (hns : ∀ x ∈ p, (ns x).selfish = false)
    (hdec : ∀ k, 1 ≤ dec k ∧ dec k ≤ 5) :
    send_packet (buildGraph cfg ns) roll dec ns src dst
      = (applyPowers dec p 0 ns, some p, "Delivered") ∧
    (∀ i (hi : i < p.length),
      ((applyPowers dec (p.take (i + 1)) 0 ns) (p.get ⟨i, hi⟩)).power
        = ((applyPowers dec (p.take i) 0 ns) (p.get ⟨i, hi⟩)).power - dec i ∧
      1 ≤ dec i ∧ dec i ≤ 5) ∧
    (∀ x ∈ p, ((applyPowers dec p 0 ns) x).power < (ns x).power) := by
  have hne : p ≠ [] :=
    (find_route_sound _ _ _ _ (buildGraph_iso cfg ns) hroute).1
  refine ⟨?_, ?_, ?_⟩
  · simp only [send_packet, hroute]
    rw [if_neg hne]
    rw [sendWalk_no_drop roll dec p 0 ns ?hnd]
    case hnd =>
      intro i hi hs
      rw [hns (p.get ⟨i, hi⟩) (List.get_mem p i hi)] at hs
      cases hs
  · intro i hi
    have htake : p.take (i + 1) = p.take i ++ [p.get ⟨i, hi⟩] := by
      rw [← List.take_concat_get p i hi, List.concat_eq_append]
      simp [List.get_eq_getElem]
    have hlen : (p.take i).length = i := by
      rw [List.length_take]
      omega
    rw [htake, applyPowers_append dec (p.take i) [p.get ⟨i, hi⟩] 0 ns, hlen]
    rw [applyPowers, applyPowers]
    simp [decPower]
    exact ⟨(hdec i).1, (hdec i).2⟩
  · exact fun x hx =>
      applyPowers_power_lt dec (fun k => (hdec k).1) p 0 ns x hx

/-- Witness for C3 on the two-node cooperative example: route [0, 1], power
decrement 2 per hop. -/
theorem send_c3_witness :
    send_packet (buildGraph cfgW nodesD) (fun _ => 0) (fun _ => 2) nodesD 0 1
      = (applyPowers (fun _ => 2) [0, 1] 0 nodesD, some [0, 1], "Delivered") ∧
    ((applyPowers (fun _ => 2) [0, 1] 0 nodesD) 1).power < (nodesD 1).power := by
  have h := send_c3 cfgW nodesD (fun _ => 0) (fun _ => 2) 0 1 [0, 1]
    (by decide) (by decide) (fun k => ⟨by norm_num, by norm_num⟩)
  exact ⟨h.1, h.2.2 1 (by decide)⟩

/-- Whatever path the walk takes, it only ever touches power and trust of
nodes on its hop list; positions and selfish flags survive unconditionally. -/
lemma sendWalk_frame (roll : ℕ → ℚ) (dec : ℕ → ℤ) (p : List ℕ) :
    ∀ (k : ℕ) (nodes : ℕ → NodeData),
      (∀ z, (((sendWalk roll dec p k nodes).1) z).x = (nodes z).x ∧
        (((sendWalk roll dec p k nodes).1) z).y = (nodes z).y ∧
        (((sendWalk roll dec p k nodes).1) z).selfish = (nodes z).selfish) ∧
      (∀ z, z ∉ p → ((sendWalk roll dec p k nodes).1) z = nodes z) := by
  induction p with
  | nil => exact fun k nodes => ⟨fun z => ⟨rfl, rfl, rfl⟩, fun z _ => rfl⟩
  | cons hop tail ih =>
    intro k nodes
    rw [sendWalk]
    by_cases hc : (nodes hop).selfish = true ∧ roll k < 3 / 5
    · rw [if_pos hc]
      constructor
      · intro z
        exact ⟨(decTrust_keeps nodes hop z).1, (decTrust_keeps nodes hop z).2.1,
          (decTrust_keeps nodes hop z).2.2.2⟩
      · intro z hz
        simp only [List.mem_cons, not_or] at hz
        simp [decTrust, hz.1]
    · rw [if_neg hc]
      have ihh := ih (k + 1) (decPower nodes hop (dec k))
      constructor
      · intro z
        have h1 := ihh.1 z
        have h2 := decPower_keeps nodes hop (dec k) z
        exact ⟨h1.1.trans h2.1, h1.2.1.trans h2.2.1, h1.2.2.trans h2.2.2.2⟩
      · intro z hz
        simp only [List.mem_cons, not_or] at hz
        rw [ihh.2 z hz.2]
        simp [decPower, hz.1]

/-- C8: send_packet only mutates power and trust of nodes on the returned
path: positions and selfish flags are unchanged for every node, nodes off
the returned path keep their whole record, and on the no-path outcome every
node keeps its whole record. The graph value itself is immutable in the
embedding and send_packet produces none. -/
theorem frame_c8 (g : WGraph) (roll : ℕ → ℚ) (dec : ℕ → ℤ) (ns : ℕ → NodeData)
    (src dst : ℕ) :
    (∀ z, (((send_packet g roll dec ns src dst).1) z).x = (ns z).x ∧
        (((send_packet g roll dec ns src dst).1) z).y = (ns z).y ∧
        (((send_packet g roll dec ns src dst).1) z).selfish = (ns z).selfish) ∧
    (∀ p, (send_packet g roll dec ns src dst).2.1 = some p →
      ∀ z, z ∉ p → ((send_packet g roll dec ns src dst).1) z = ns z) ∧
    ((send_packet g roll dec ns src dst).2.1 = none →
      ∀ z, ((send_packet g roll dec ns src dst).1) z = ns z) := by
  cases hfr : find_route g src dst with
  | none =>
    refine ⟨?_, ?_, ?_⟩ <;> simp [send_packet, hfr]
  | some q =>
    by_cases hq : q = []
    · subst hq
      refine ⟨?_, ?_, ?_⟩ <;> simp [send_packet, hfr]
    · have hsp1 : (send_packet g roll dec ns src dst).1
          = (sendWalk roll dec q 0 ns).1 := by
        simp [send_packet, hfr, hq]
      have hsp2 : (send_packet g roll dec ns src dst).2.1 = some q := by
        simp [send_packet, hfr, hq]
      refine ⟨?_, ?_, ?_⟩
      · intro z
        rw [hsp1]
        exact (sendWalk_frame roll dec q 0 ns).1 z
      · intro p hp z hz
        rw [hsp2] at hp
        injection hp with hp
        subst hp
        rw [hsp1]
        exact (sendWalk_frame roll dec q 0 ns).2 z hz
      · intro hnone
        rw [hsp2] at hnone
        cases hnone

/-- Concrete outcome of the example run used by the frame witness: the walk
on [0, 1] drops at the selfish node 1. -/
lemma run_gW :
    send_packet gW (fun _ => 0) (fun _ => 2) nodesW 0 1
      = (decTrust (applyPowers (fun _ => 2) [0] 0 nodesW) 1, some [0, 1],
        "Dropped by selfish node") := by
  have hroute : find_route gW 0 1 = some ([0] ++ 1 :: []) := by decide
  simp only [send_packet, hroute]
  rw [if_neg (by simp)]
  rw [sendWalk_append_no_drop (fun _ => 0) (fun _ => 2) [0] (1 :: []) 0 nodesW ?h1]
  case h1 =>
    intro i hi hs
    have hi0 : i = 0 := Nat.lt_one_iff.mp (by simpa using hi)
    subst hi0
    simp [nodesW] at hs
  rw [sendWalk, if_pos ?h2]
  case h2 =>
    constructor
    · rw [(applyPowers_keeps (fun _ => 2) [0] 0 nodesW 1).2.2.2]
      decide
    · norm_num
  rfl

/-- Witness for C8 on the two-node example: node 5 is off the path [0, 1]
and keeps its record. -/
theorem frame_c8_witness :
    (((send_packet gW (fun _ => 0) (fun _ => 2) nodesW 0 1).1 5).selfish
      = (nodesW 5).selfish) ∧
    ((send_packet gW (fun _ => 0) (fun _ => 2) nodesW 0 1).1 5 = nodesW 5) := by
  have h := frame_c8 gW (fun _ => 0) (fun _ => 2) nodesW 0 1
  have hpath : (send_packet gW (fun _ => 0) (fun _ => 2) nodesW 0 1).2.1
      = some [0, 1] := by
    rw [run_gW]
  exact ⟨(h.1 5).2.2, h.2.1 [0, 1] hpath 5 (by decide)⟩

end WMN
